import Mathlib

/-!
Verification of the personal-assistant console tool (`zad_z_mod1.py`):
a contact directory (`AddressBook`) with integer id allocation/recycling,
substring search and birthday queries, and a tagged note collection
(`Notebook` / `Tag`).  The definitions below are a shallow embedding of
the Python source; interactive prompts and printing are dropped, and the
filesystem is abstracted by an explicit `LoadResult` argument.
-/

/- ## Calendar arithmetic (models Python's `datetime.date`) -/

/-- Gregorian leap-year test, as in Python's `calendar.isleap` used by
`datetime`: divisible by 4 and not by 100, or divisible by 400. -/
def isLeap (y : Nat) : Bool :=
  (y % 4 == 0 && y % 100 != 0) || (y % 400 == 0)

/-- Number of days in month `m` of year `y` (months are 1-based). -/
def daysInMonth (y m : Nat) : Nat :=
  if m = 2 then (if isLeap y then 29 else 28)
  else if m = 4 ∨ m = 6 ∨ m = 9 ∨ m = 11 then 30
  else 31

/-- Number of days in year `y`. -/
def daysInYear (y : Nat) : Nat := if isLeap y then 366 else 365

/-- Days in year `y` strictly before month `m` (0 for January). -/
def daysBeforeMonth (y m : Nat) : Nat :=
  ∑ i ∈ Finset.range (m - 1), daysInMonth y (i + 1)

/-- Days before January 1 of year `y`, counted from year 1
(Python's `datetime._days_before_year`). -/
def daysBeforeYear (y : Nat) : Nat :=
  365 * (y - 1) + (y - 1) / 4 - (y - 1) / 100 + (y - 1) / 400

/-- Proleptic-Gregorian ordinal of a date, as `datetime.date.toordinal`:
day 1 is January 1 of year 1. -/
def toOrdinal (y m d : Nat) : Nat :=
  daysBeforeYear y + daysBeforeMonth y m + d

/-- A calendar date as carried by Python `datetime.date` values. -/
structure CalDate where
  year : Nat
  month : Nat
  day : Nat
deriving DecidableEq, Repr

/-- Validity of a `CalDate` under `datetime.date`'s constructor checks
(`MINYEAR = 1`; the 9999 upper bound is kept separate where needed). -/
def dateOK (d : CalDate) : Prop :=
  1 ≤ d.year ∧ 1 ≤ d.month ∧ d.month ≤ 12 ∧ 1 ≤ d.day ∧
  d.day ≤ daysInMonth d.year d.month

instance (d : CalDate) : Decidable (dateOK d) := by
  unfold dateOK
  infer_instance

/-- Ordinal of a `CalDate`. -/
def CalDate.ord (d : CalDate) : Nat := toOrdinal d.year d.month d.day

/-- Python `date` comparison: lexicographic on (year, month, day). -/
def dateLtB (a b : CalDate) : Bool :=
  decide (a.year < b.year ∨ (a.year = b.year ∧
    (a.month < b.month ∨ (a.month = b.month ∧ a.day < b.day))))

/-- A Python `datetime.datetime`: a date plus seconds into the day
(sub-second precision is irrelevant to the modelled code). -/
structure DateTimeM where
  date : CalDate
  sec : Nat
deriving DecidableEq, Repr

/-- Python `datetime` comparison: lexicographic on date then time. -/
def dtLtB (a b : DateTimeM) : Bool :=
  dateLtB a.date b.date || (a.date == b.date && decide (a.sec < b.sec))

/-- Total seconds of a datetime counted from the ordinal epoch; used to
model `datetime` subtraction (`timedelta`). -/
def secOf (d : CalDate) (s : Nat) : Int := (d.ord : Int) * 86400 + s

/- ## The `"%Y-%m-%d"` strptime parser

`BirthDate.validate_birthdate`, `Record.days_to_birthdate` and
`AddressBook.upcoming_birthdays` all call
`datetime.strptime(value, "%Y-%m-%d")`.  CPython's `_strptime` compiles
the format to the regex `(?P<Y>\d\d\d\d)-(?P<m>1[0-2]|0[1-9]|[1-9])-`
`(?P<d>3[01]|[12]\d|0[1-9]|[1-9])`, requires the regex match to consume
the whole string, and then builds `datetime(y, m, d)`, which raises
`ValueError` for impossible dates.  The month alternation accepts
exactly the one- or two-digit strings with value in 1..12, and the day
alternation exactly those with value in 1..31; because the character
following the month (resp. the day) in the surrounding format is the
literal `-` (resp. end of string), the regex engine's backtracking never
turns a failed two-digit read into a successful one-digit read, so the
committed parsers below are equivalent to the regex. -/

/-- Numeric value of a digit character. -/
def dval (c : Char) : Nat := c.toNat - 48

/-- Parse the `%m` field: regex `1[0-2]|0[1-9]|[1-9]`. -/
def parseMonth : List Char → Option (Nat × List Char)
  | c1 :: c2 :: rest =>
    if c1.isDigit ∧ c2.isDigit ∧ 1 ≤ 10 * dval c1 + dval c2 ∧
        10 * dval c1 + dval c2 ≤ 12 then
      some (10 * dval c1 + dval c2, rest)
    else if c1.isDigit ∧ 1 ≤ dval c1 then some (dval c1, c2 :: rest)
    else none
  | [c1] => if c1.isDigit ∧ 1 ≤ dval c1 then some (dval c1, []) else none
  | [] => none

/-- Parse the `%d` field: regex `3[01]|[12]\d|0[1-9]|[1-9]`. -/
def parseDay : List Char → Option (Nat × List Char)
  | c1 :: c2 :: rest =>
    if c1.isDigit ∧ c2.isDigit ∧ 1 ≤ 10 * dval c1 + dval c2 ∧
        10 * dval c1 + dval c2 ≤ 31 then
      some (10 * dval c1 + dval c2, rest)
    else if c1.isDigit ∧ 1 ≤ dval c1 then some (dval c1, c2 :: rest)
    else none
  | [c1] => if c1.isDigit ∧ 1 ≤ dval c1 then some (dval c1, []) else none
  | [] => none

/-- Parse a whole `"%Y-%m-%d"` string: exactly four year digits, a
literal `-`, the month field, a literal `-`, the day field, end of
string. -/
def parseYMD (s : List Char) : Option (Nat × Nat × Nat) :=
  match s with
  | c1 :: c2 :: c3 :: c4 :: c5 :: r1 =>
    if c1.isDigit ∧ c2.isDigit ∧ c3.isDigit ∧ c4.isDigit ∧ c5 = '-' then
      match parseMonth r1 with
      | some (m, r) =>
        match r with
        | c6 :: r2 =>
          if c6 = '-' then
            match parseDay r2 with
            | some (d, r3) =>
              if r3 = [] then
                some (1000 * dval c1 + 100 * dval c2 + 10 * dval c3 + dval c4,
                  m, d)
              else none
            | none => none
          else none
        | [] => none
      | none => none
    else none
  | _ => none

/-- `datetime.strptime(s, "%Y-%m-%d")` as an `Option`-valued function:
regex parse plus the `datetime` constructor's range checks. -/
def strptimeYMD (s : String) : Option CalDate :=
  match parseYMD s.data with
  | some (y, m, d) =>
    if 1 ≤ y ∧ y ≤ 9999 ∧ 1 ≤ m ∧ m ≤ 12 ∧ 1 ≤ d ∧ d ≤ daysInMonth y m then
      some ⟨y, m, d⟩
    else none
  | none => none

/-- `BirthDate.validate_birthdate`: true iff `strptime` succeeds. -/
def validate_birthdate (s : String) : Bool := (strptimeYMD s).isSome

/- ## Contact records (`Record`) -/

/-- The data of a Python `Record` relevant to the verified operations.
Phone numbers and e-mail addresses are the `.value` strings of the
`PhoneNumber` / `EmailAddress` field objects; `birthdate` is the
`.value` string of the optional `BirthDate` field (`none` models
`birthdate = None`). -/
structure RecordM where
  name : String
  phone_numbers : List String
  email_addresses : List String
  birthdate : Option String
deriving DecidableEq, Repr

/-- Result of `Record.days_to_birthdate`: the Polish sentinel string for
a missing birthdate, a raised `ValueError` (from `strptime` or
`date.replace`), or a day count. -/
inductive BdayRes where
  | noBday : BdayRes
  | err : BdayRes
  | days : Int → BdayRes
deriving DecidableEq, Repr

/-- `date.replace(year=y)` on date `b`: keeps month and day, re-checks
the constructor invariants, raising (`none`) e.g. for Feb 29 in a
non-leap year. -/
def replaceYear (b : CalDate) (y : Nat) : Option CalDate :=
  if 1 ≤ y ∧ y ≤ 9999 ∧ b.day ≤ daysInMonth y b.month then
    some ⟨y, b.month, b.day⟩
  else none

/-- `Record.days_to_birthdate`, with "now" made explicit.  The source
compares the full `datetime.now()` (including time of day) against the
birthday at midnight, and returns `(next_birthday - today).days`, i.e.
the floor of the signed difference in days. -/
def RecordM.days_to_birthdate (now : DateTimeM) (r : RecordM) : BdayRes :=
  match r.birthdate with
  | none => .noBday
  | some bs =>
    if bs = "" then .noBday
    else
      match strptimeYMD bs with
      | none => .err
      | some b =>
        match replaceYear b now.date.year with
        | none => .err
        | some nb =>
          if dtLtB ⟨nb, 0⟩ now then
            match replaceYear b (now.date.year + 1) with
            | none => .err
            | some nb2 => .days ((secOf nb2 0 - secOf now.date now.sec).fdiv 86400)
          else .days ((secOf nb 0 - secOf now.date now.sec).fdiv 86400)

/-- The birthday recomputation shared by `AddressBook.upcoming_birthdays`
(date-only arithmetic): put the birthday in the current year, advance a
year if it already passed, and count days from today. -/
def daysUntilNext (today b : CalDate) : Option Int :=
  match replaceYear b today.year with
  | none => none
  | some nb =>
    match (if dateLtB nb today then replaceYear b (today.year + 1) else some nb) with
    | none => none
    | some nb2 => some ((nb2.ord : Int) - today.ord)

/- ## The address book -/

/-- `AddressBook` state: the ordered `id → Record` mapping (`UserDict`
data, modelled as an association list in insertion order), `next_id`
and `free_ids`. -/
structure AddressBook where
  data : List (Nat × RecordM)
  next_id : Nat
  free_ids : Finset Nat
deriving DecidableEq

/-- A fresh `AddressBook()`. -/
def AddressBook.mkEmpty : AddressBook := ⟨[], 1, ∅⟩

/-- Live keys of the record mapping. -/
def AddressBook.liveKeys (b : AddressBook) : Finset Nat :=
  (b.data.map Prod.fst).toFinset

/-- Python dict assignment `d[k] = v`: overwrite in place if the key is
present, otherwise append. -/
def dictInsert (l : List (Nat × RecordM)) (k : Nat) (v : RecordM) :
    List (Nat × RecordM) :=
  if l.any (fun p => p.1 == k) then
    l.map (fun p => if p.1 = k then (k, v) else p)
  else l ++ [(k, v)]

/-- The `while self.next_id in self.data or self.next_id in self.free_ids:
self.next_id += 1` loop, with fuel.  `|s| + 1` steps always suffice
(`advanceId_spec` below proves the loop's postcondition: the result is
the least candidate `≥ n` outside `s`). -/
def advanceFrom (s : Finset Nat) : Nat → Nat → Nat
  | 0, n => n
  | fuel + 1, n => if n ∈ s then advanceFrom s fuel (n + 1) else n

/-- Advance a candidate id past every element of `s`, starting at `n`. -/
def advanceId (s : Finset Nat) (n : Nat) : Nat := advanceFrom s (s.card + 1) n

/-- `AddressBook.add_record`: advance `next_id` past live and free ids;
then take the smallest free id if any, else the advanced candidate.
Returns the new state and the assigned id (the source stores it in
`record.id`). -/
def AddressBook.add_record (b : AddressBook) (r : RecordM) :
    AddressBook × Nat :=
  let n := advanceId (b.liveKeys ∪ b.free_ids) b.next_id
  if h : b.free_ids.Nonempty then
    let i := b.free_ids.min' h
    (⟨dictInsert b.data i r, n, b.free_ids.erase i⟩, i)
  else
    (⟨dictInsert b.data n r, n + 1, b.free_ids⟩, n)

/-- `AddressBook.delete_record_by_id` with the parsed id made explicit:
if present, remove the entry and return the id to `free_ids`. -/
def AddressBook.delete_by_id (b : AddressBook) (i : Nat) : AddressBook :=
  if i ∈ b.data.map Prod.fst then
    ⟨b.data.filter (fun p => p.1 != i), b.next_id, insert i b.free_ids⟩
  else b

/- ### Search -/

/-- Python `str.lower()` (character-wise lowercasing; the searched
names and terms are treated character by character). -/
def lowerS (s : String) : List Char := s.data.map Char.toLower

/-- `needle` is a prefix of `hay` (character lists). -/
def hasPrefixL : List Char → List Char → Bool
  | [], _ => true
  | _ :: _, [] => false
  | a :: as, b :: bs => a == b && hasPrefixL as bs

/-- Python's substring test `needle in hay`. -/
def substrB (needle : List Char) : List Char → Bool
  | [] => needle.isEmpty
  | c :: rest => hasPrefixL needle (c :: rest) || substrB needle rest

/-- `search_term.lower() in record.name.value.lower()`. -/
def matchesName (term : String) (r : RecordM) : Bool :=
  substrB (lowerS term) (lowerS r.name)

/-- Some phone number contains `term` (case-sensitive). -/
def matchesPhone (term : String) (r : RecordM) : Bool :=
  r.phone_numbers.any (fun p => substrB term.data p.data)

/-- Some e-mail address contains `term` (case-sensitive). -/
def matchesEmail (term : String) (r : RecordM) : Bool :=
  r.email_addresses.any (fun p => substrB term.data p.data)

/-- One iteration of `AddressBook.find_record`'s loop body: a name match
appends once and `continue`s; otherwise the phone loop appends at most
once (`break`) and the e-mail loop appends at most once — both can fire
for the same record. -/
def findBlock (term : String) (r : RecordM) : List RecordM :=
  if matchesName term r then [r]
  else (if matchesPhone term r then [r] else []) ++
       (if matchesEmail term r then [r] else [])

/-- `AddressBook.find_record` over a list of records in iteration order. -/
def findRecAux (term : String) : List RecordM → List RecordM
  | [] => []
  | r :: rest => findBlock term r ++ findRecAux term rest

/-- `AddressBook.find_record`. -/
def AddressBook.find_record (b : AddressBook) (term : String) : List RecordM :=
  findRecAux term (b.data.map Prod.snd)

/- ### Birthday window -/

/-- Body of `AddressBook.upcoming_birthdays`: for each record with a
birthdate, `strptime` it (an invalid stored string would raise — `none`),
recompute the next occurrence and collect the name if the day count is
`≤ w`.  The whole call fails (`none`) if any record raises. -/
def upcomingAux (today : CalDate) (w : Int) :
    List (Nat × RecordM) → Option (List String)
  | [] => some []
  | p :: rest =>
    match p.2.birthdate with
    | none => upcomingAux today w rest
    | some s =>
      match strptimeYMD s with
      | none => none
      | some b =>
        match daysUntilNext today b with
        | none => none
        | some n =>
          match upcomingAux today w rest with
          | none => none
          | some names =>
            some (if n ≤ w then p.2.name :: names else names)

/-- `AddressBook.upcoming_birthdays` with "today" made explicit. -/
def AddressBook.upcoming_birthdays (b : AddressBook) (today : CalDate)
    (w : Int) : Option (List String) :=
  upcomingAux today w b.data

/- ### Persistence -/

/-- Outcome of reading the pickle file, as seen by the `try` blocks:
`missing` is `FileNotFoundError`, `failure` any other exception
(I/O or deserialization), `ok` a successful unpickle. -/
inductive LoadResult (α : Type) where
  | missing : LoadResult α
  | failure : LoadResult α
  | ok : α → LoadResult α

/-- `load_address_book`: on success only `data` is restored (`next_id`
and `free_ids` come from `AddressBook()`); on `FileNotFoundError` or any
other exception a fresh empty book is returned. -/
def load_address_book (r : LoadResult (List (Nat × RecordM))) : AddressBook :=
  match r with
  | .ok d => ⟨d, 1, ∅⟩
  | .missing => AddressBook.mkEmpty
  | .failure => AddressBook.mkEmpty

/-- Address-book states reachable by the program: a fresh book, any
result of `load_address_book`, or the result of an add/delete on a
reachable state. -/
inductive Reachable : AddressBook → Prop
  | new : Reachable AddressBook.mkEmpty
  | loaded (r : LoadResult (List (Nat × RecordM))) :
      Reachable (load_address_book r)
  | add (b : AddressBook) (r : RecordM) :
      Reachable b → Reachable (b.add_record r).1
  | del (b : AddressBook) (i : Nat) :
      Reachable b → Reachable (b.delete_by_id i)

/- ## Notes (`Note`, `Notebook`, `Tag`) -/

/-- A Python `Note`: content, creation timestamp (opaque), and the tag
*list* (`self.tags = []`, extended by `append`). -/
structure NoteM where
  content : String
  created_at : Nat
  tags : List String
deriving DecidableEq, Repr

/-- `Note.add_tag`: `self.tags.append(tag)`. -/
def NoteM.add_tag (n : NoteM) (t : String) : NoteM :=
  { n with tags := n.tags ++ [t] }

/-- The `Notebook`: an ordered list of notes. -/
structure Notebook where
  notes : List NoteM
deriving DecidableEq

/-- Replace the element at index `i` (0-based) by `f` of it; other
positions and out-of-range indices are untouched. -/
def modifyAt : List NoteM → Nat → (NoteM → NoteM) → List NoteM
  | [], _, _ => []
  | x :: xs, 0, f => f x :: xs
  | x :: xs, i + 1, f => x :: modifyAt xs i f

/-- `Notebook.delete_note`: 1-based position; `none` models the
"Nie ma notatki o podanym ID." failure branch. -/
def Notebook.delete_note (nb : Notebook) (i : Nat) : Option Notebook :=
  if 1 ≤ i ∧ i ≤ nb.notes.length then some ⟨nb.notes.eraseIdx (i - 1)⟩
  else none

/-- `Notebook.load_notes`: `FileNotFoundError` resets `self.notes = []`;
any other exception only prints a warning and leaves `self.notes`
unchanged; success replaces the list. -/
def Notebook.load_notes (nb : Notebook) (r : LoadResult (List NoteM)) :
    Notebook :=
  match r with
  | .ok ns => ⟨ns⟩
  | .missing => ⟨[]⟩
  | .failure => nb

/-- `Tag.add_tag`: 1-based position check, then `note.add_tag(tag)`;
out of range leaves the notebook unchanged (error message branch). -/
def Tag.add_tag (nb : Notebook) (i : Nat) (t : String) : Notebook :=
  if 1 ≤ i ∧ i ≤ nb.notes.length then
    ⟨modifyAt nb.notes (i - 1) (fun n => n.add_tag t)⟩
  else nb

/-- `Tag.search_tag`: notes whose tag list contains `tag`, in order. -/
def Tag.search_tag (nb : Notebook) (t : String) : List NoteM :=
  nb.notes.filter (fun n => decide (t ∈ n.tags))

/-- Python's `<=` on strings: lexicographic comparison of the code
point sequences (the order used by `sorted`). -/
def lexLe : List Char → List Char → Bool
  | [], _ => true
  | _ :: _, [] => false
  | a :: as, b :: bs => decide (a < b) || (a == b && lexLe as bs)

/-- String comparison as `sorted()` uses it. -/
def strLeB (a b : String) : Prop := lexLe a.data b.data = true

instance : DecidableRel strLeB := fun a b => by
  unfold strLeB
  infer_instance

/-- `Tag.sort_tags`: the distinct tags (`set(...)`), sorted
(`sorted(all_tags)`, lexicographic on code points), each paired with the
notes carrying it in collection order.  The insertion-ordered Python
dict is the association list.  `sorted` is a stable sort; on a
duplicate-free list any sort producing a `lexLe`-sorted permutation
yields the same list, so `insertionSort` is a faithful model. -/
def Tag.sort_tags (nb : Notebook) : List (String × List NoteM) :=
  (List.insertionSort strLeB ((nb.notes.map NoteM.tags).flatten.dedup)).map
    (fun t => (t, nb.notes.filter (fun n => decide (t ∈ n.tags))))

/- ## Shape predicates for the parser characterization -/

/-- Follows the words of claim C9, not the source: strict zero-padded
`YYYY-MM-DD` — exactly four year digits, exactly two month digits,
exactly two day digits, and a possible calendar date. -/
def specStrictYMD (s : String) : Bool :=
  match s.data with
  | [y1, y2, y3, y4, '-', m1, m2, '-', d1, d2] =>
    if y1.isDigit ∧ y2.isDigit ∧ y3.isDigit ∧ y4.isDigit ∧
        m1.isDigit ∧ m2.isDigit ∧ d1.isDigit ∧ d2.isDigit then
      decide (1 ≤ 1000 * dval y1 + 100 * dval y2 + 10 * dval y3 + dval y4 ∧
        1 ≤ 10 * dval m1 + dval m2 ∧ 10 * dval m1 + dval m2 ≤ 12 ∧
        1 ≤ 10 * dval d1 + dval d2 ∧
        10 * dval d1 + dval d2 ≤
          daysInMonth (1000 * dval y1 + 100 * dval y2 + 10 * dval y3 + dval y4)
            (10 * dval m1 + dval m2))
    else false
  | _ => false

/-- A character list that reads as a one- or two-digit numeral of `v`
(zero-padding optional below 10). -/
def reads1or2 (l : List Char) (v : Nat) : Prop :=
  (∃ a, l = [a] ∧ a.isDigit = true ∧ v = dval a) ∨
  (∃ a b, l = [a, b] ∧ a.isDigit = true ∧ b.isDigit = true ∧
    v = 10 * dval a + dval b)

/-- A character list that reads as a four-digit numeral of `v`. -/
def reads4 (l : List Char) (v : Nat) : Prop :=
  ∃ a b c e, l = [a, b, c, e] ∧ a.isDigit = true ∧ b.isDigit = true ∧
    c.isDigit = true ∧ e.isDigit = true ∧
    v = 1000 * dval a + 100 * dval b + 10 * dval c + dval e

/-- The shape accepted by the `"%Y-%m-%d"` parser: a four-digit year
and one- or two-digit month and day numerals separated by hyphens. -/
def reprYMD (s : String) (y m d : Nat) : Prop :=
  ∃ ys ms ds, reads4 ys y ∧ reads1or2 ms m ∧ reads1or2 ds d ∧
    s.data = ys ++ '-' :: (ms ++ '-' :: ds)

/- ## Concrete fixtures used by witnesses and counterexamples -/

/-- Fixture record "A" (no phones, e-mails or birthdate). -/
def recA : RecordM := ⟨"A", [], [], none⟩

/-- Fixture record "B". -/
def recB : RecordM := ⟨"B", [], [], none⟩

/-- Fixture record "C". -/
def recC : RecordM := ⟨"C", [], [], none⟩

/-- Fixture record matching `"123"` on both a phone and an e-mail but
not on the name. -/
def recD : RecordM := ⟨"Anna", ["123456789"], ["123@ab.cd"], none⟩

/-- Fixture record with birthdate October 12. -/
def recBd12 : RecordM := ⟨"A", [], [], some "1990-10-12"⟩

/-- Fixture record with birthdate October 13. -/
def recBd13 : RecordM := ⟨"B", [], [], some "1990-10-13"⟩

/-- Fixture note tagged `{"b"}`. -/
def nt1 : NoteM := ⟨"one", 0, ["b"]⟩

/-- Fixture note tagged `{"a"}`. -/
def nt2 : NoteM := ⟨"two", 1, ["a"]⟩

/-- Fixture note tagged `{"a", "b"}`. -/
def nt3 : NoteM := ⟨"three", 2, ["a", "b"]⟩

/- ## Lemmas about id allocation -/

theorem advanceFrom_spec (s : Finset Nat) :
    ∀ fuel n, (s.filter (fun m => n ≤ m)).card < fuel →
      advanceFrom s fuel n ∉ s ∧ n ≤ advanceFrom s fuel n ∧
        ∀ k, n ≤ k → k < advanceFrom s fuel n → k ∈ s := by
  intro fuel
  induction fuel with
  | zero => intro n h; omega
  | succ f ih =>
    intro n h
    by_cases hn : n ∈ s
    · have hsub : (s.filter (fun m => n + 1 ≤ m)).card <
          (s.filter (fun m => n ≤ m)).card := by
        apply Finset.card_lt_card
        refine ⟨fun x hx => ?_, fun hsub' => ?_⟩
        · simp only [Finset.mem_filter] at hx ⊢
          exact ⟨hx.1, by omega⟩
        · have := hsub' (Finset.mem_filter.mpr ⟨hn, le_refl n⟩)
          simp only [Finset.mem_filter] at this
          omega
      have hrec := ih (n + 1) (by omega)
      have hval : advanceFrom s (f + 1) n = advanceFrom s f (n + 1) := by
        simp [advanceFrom, hn]
      refine ⟨hval ▸ hrec.1, by rw [hval]; omega, ?_⟩
      intro k hk1 hk2
      rw [hval] at hk2
      rcases Nat.eq_or_lt_of_le hk1 with h' | h'
      · exact h' ▸ hn
      · exact hrec.2.2 k h' hk2
    · have hval : advanceFrom s (f + 1) n = n := by simp [advanceFrom, hn]
      rw [hval]
      exact ⟨hn, le_refl n, fun k hk1 hk2 => absurd hk2 (by omega)⟩

theorem advanceId_spec (s : Finset Nat) (n : Nat) :
    advanceId s n ∉ s ∧ n ≤ advanceId s n ∧
      ∀ k, n ≤ k → k < advanceId s n → k ∈ s := by
  apply advanceFrom_spec
  have := Finset.card_filter_le s (fun m => n ≤ m)
  omega

/-- Claim C1: `add_record` first advances the candidate id past every
live or free id; if `free_ids` is non-empty the assigned id is its
minimum (which gets removed), otherwise the advanced candidate is
assigned and `next_id` moves one past it.  After add, add, delete(1),
the next `add_record` assigns id 1. -/
theorem claim_C1_id_allocation :
    (∀ (s : Finset Nat) (n : Nat), advanceId s n ∉ s ∧ n ≤ advanceId s n ∧
      ∀ k, n ≤ k → k < advanceId s n → k ∈ s) ∧
    (∀ (b : AddressBook) (r : RecordM) (h : b.free_ids.Nonempty),
      (b.add_record r).2 = b.free_ids.min' h ∧
      (b.add_record r).1.free_ids = b.free_ids.erase (b.free_ids.min' h) ∧
      (b.add_record r).1.next_id = advanceId (b.liveKeys ∪ b.free_ids) b.next_id) ∧
    (∀ (b : AddressBook) (r : RecordM), b.free_ids = ∅ →
      (b.add_record r).2 = advanceId (b.liveKeys ∪ b.free_ids) b.next_id ∧
      (b.add_record r).1.next_id =
        advanceId (b.liveKeys ∪ b.free_ids) b.next_id + 1) ∧
    ((AddressBook.mkEmpty.add_record recA).2 = 1 ∧
      ((AddressBook.mkEmpty.add_record recA).1.add_record recB).2 = 2 ∧
      ((((AddressBook.mkEmpty.add_record recA).1.add_record
          recB).1.delete_by_id 1).add_record recC).2 = 1) := by
  refine ⟨advanceId_spec, ?_, ?_, by decide⟩
  · intro b r h
    simp only [AddressBook.add_record, dif_pos h]
    exact ⟨trivial, trivial, trivial⟩
  · intro b r h
    have h' : ¬ b.free_ids.Nonempty := by
      rw [h]; exact Finset.not_nonempty_empty
    simp only [AddressBook.add_record, dif_neg h']
    exact ⟨trivial, trivial⟩

/-- Witness for C1: on a book with live key 2, `next_id = 3` and
`free_ids = {1}`, adding a record updates `next_id` to the advanced
candidate. -/
theorem claim_C1_id_allocation_witness :
    (AddressBook.add_record ⟨[(2, recB)], 3, {1}⟩ recC).1.next_id =
      advanceId (AddressBook.liveKeys ⟨[(2, recB)], 3, {1}⟩ ∪ {1}) 3 :=
  (claim_C1_id_allocation.2.1 ⟨[(2, recB)], 3, {1}⟩ recC ⟨1, by decide⟩).2.2

/- ## Lemmas about the key set of the record mapping -/

theorem dictInsert_keys (l : List (Nat × RecordM)) (k : Nat) (v : RecordM) :
    ((dictInsert l k v).map Prod.fst).toFinset =
      insert k (l.map Prod.fst).toFinset := by
  unfold dictInsert
  by_cases h : l.any (fun p => p.1 == k)
  · rw [if_pos h]
    have hmem : k ∈ (l.map Prod.fst).toFinset := by
      rcases List.any_eq_true.mp h with ⟨p, hp, hpk⟩
      simp only [List.mem_toFinset, List.mem_map]
      exact ⟨p, hp, by simpa using hpk⟩
    have hmap : (l.map (fun p => if p.1 = k then (k, v) else p)).map Prod.fst =
        l.map Prod.fst := by
      rw [List.map_map]
      apply List.map_congr_left
      intro p _
      by_cases hpk : p.1 = k
      · simp [hpk]
      · simp [hpk]
    rw [hmap, Finset.insert_eq_self.mpr hmem]
  · rw [if_neg h]
    ext x
    simp [or_comm]

theorem deleteFilter_keys (l : List (Nat × RecordM)) (i : Nat) :
    ((l.filter (fun p => p.1 != i)).map Prod.fst).toFinset =
      (l.map Prod.fst).toFinset.erase i := by
  ext x
  simp only [List.mem_toFinset, List.mem_map, List.mem_filter,
    Finset.mem_erase, bne_iff_ne, ne_eq]
  constructor
  · rintro ⟨p, ⟨hp, hne⟩, rfl⟩
    exact ⟨hne, p, hp, rfl⟩
  · rintro ⟨hne, p, hp, rfl⟩
    exact ⟨p, ⟨hp, hne⟩, rfl⟩

/-- In every reachable address-book state, no free id is a live key. -/
theorem reachable_disjoint {b : AddressBook} (h : Reachable b) :
    Disjoint b.free_ids b.liveKeys := by
  induction h with
  | new => simp [AddressBook.mkEmpty, AddressBook.liveKeys]
  | loaded r =>
    cases r <;> simp [load_address_book, AddressBook.mkEmpty, AddressBook.liveKeys]
  | add b r _ ih =>
    unfold AddressBook.add_record
    by_cases hne : b.free_ids.Nonempty
    · simp only [dif_pos hne]
      rw [Finset.disjoint_left]
      intro x hx hx'
      simp only [AddressBook.liveKeys] at hx' ⊢
      rw [dictInsert_keys] at hx'
      have hxe := Finset.mem_erase.mp hx
      rcases Finset.mem_insert.mp hx' with h' | h'
      · exact hxe.1 h'
      · exact (Finset.disjoint_left.mp ih hxe.2) h'
    · simp only [dif_neg hne]
      rw [Finset.not_nonempty_iff_eq_empty.mp hne]
      exact Finset.disjoint_empty_left _
  | del b i _ ih =>
    unfold AddressBook.delete_by_id
    by_cases hmem : i ∈ b.data.map Prod.fst
    · rw [if_pos hmem]
      rw [Finset.disjoint_left]
      intro x hx hx'
      simp only [AddressBook.liveKeys] at hx' ⊢
      rw [deleteFilter_keys] at hx'
      have hxe := Finset.mem_erase.mp hx'
      rcases Finset.mem_insert.mp hx with h' | h'
      · exact hxe.1 h'
      · exact (Finset.disjoint_left.mp ih h') hxe.2
    · rw [if_neg hmem]; exact ih

/-- Claim C10: in every reachable state — in particular one hydrated
from persisted data, where `next_id` and `free_ids` are reset to 1 and
empty — `add_record` never assigns an id that is already a live key. -/
theorem claim_C10_no_live_id_reuse (b : AddressBook) (r : RecordM)
    (h : Reachable b) : (b.add_record r).2 ∉ b.data.map Prod.fst := by
  intro hmem
  have hlive : (b.add_record r).2 ∈ b.liveKeys := List.mem_toFinset.mpr hmem
  unfold AddressBook.add_record at hlive
  by_cases hne : b.free_ids.Nonempty
  · simp only [dif_pos hne] at hlive
    exact (Finset.disjoint_left.mp (reachable_disjoint h)
      (b.free_ids.min'_mem hne)) hlive
  · simp only [dif_neg hne] at hlive
    have := (advanceId_spec (b.liveKeys ∪ b.free_ids) b.next_id).1
    exact this (Finset.mem_union_left _ hlive)

/-- Witness for C10: a book hydrated from persisted data with live
key 5 does not get id 5 assigned by the next `add_record`. -/
theorem claim_C10_no_live_id_reuse_witness :
    ((load_address_book (.ok [(5, recA)])).add_record recB).2 ∉
      (load_address_book (.ok [(5, recA)])).data.map Prod.fst :=
  claim_C10_no_live_id_reuse _ recB (Reachable.loaded (.ok [(5, recA)]))

/- ## Lemmas about `find_record` -/

theorem mem_findBlock {term : String} {r x : RecordM}
    (h : x ∈ findBlock term r) : x = r := by
  unfold findBlock at h
  split_ifs at h <;> simp_all

theorem mem_findRecAux {term : String} {l : List RecordM} {x : RecordM}
    (h : x ∈ findRecAux term l) : x ∈ l := by
  induction l with
  | nil => simp [findRecAux] at h
  | cons r rest ih =>
    simp only [findRecAux, List.mem_append] at h
    rcases h with h | h
    · exact (mem_findBlock h) ▸ List.mem_cons_self r rest
    · exact List.mem_cons_of_mem r (ih h)

theorem count_findBlock_ne {term : String} {r x : RecordM} (h : x ≠ r) :
    (findBlock term r).count x = 0 := by
  rw [List.count_eq_zero]
  intro hmem
  exact h (mem_findBlock hmem)

theorem count_findBlock_self (term : String) (r : RecordM) :
    (findBlock term r).count r =
      if matchesName term r then 1
      else (if matchesPhone term r then 1 else 0) +
           (if matchesEmail term r then 1 else 0) := by
  unfold findBlock
  split_ifs <;> simp_all [List.count_cons]

theorem count_findRecAux (term : String) (r : RecordM) :
    ∀ l : List RecordM, l.Nodup →
      (findRecAux term l).count r ≤ 2 ∧
      ((matchesName term r = true ∨ matchesPhone term r = false ∨
          matchesEmail term r = false) → (findRecAux term l).count r ≤ 1) ∧
      (r ∈ l → matchesName term r = false → matchesPhone term r = true →
        matchesEmail term r = true → (findRecAux term l).count r = 2) := by
  intro l
  induction l with
  | nil => intro _; simp [findRecAux]
  | cons x rest ih =>
    intro hnd
    rcases List.nodup_cons.mp hnd with ⟨hx, hrest⟩
    have ihr := ih hrest
    rw [findRecAux, List.count_append]
    by_cases hxr : x = r
    · subst hxr
      have hzero : (findRecAux term rest).count x = 0 := by
        rw [List.count_eq_zero]
        intro hmem
        exact hx (mem_findRecAux hmem)
      rw [hzero, Nat.add_zero, count_findBlock_self]
      refine ⟨by split_ifs <;> omega, fun hc => ?_, fun _ hn hp he => ?_⟩
      · rcases hc with hc | hc | hc <;> simp [hc] <;> split_ifs <;> omega
      · simp [hn, hp, he]
    · rw [count_findBlock_ne (Ne.symm (by simpa using hxr))]
      refine ⟨by omega, fun hc => by have := ihr.2.1 hc; omega,
        fun hmem hn hp he => ?_⟩
      have : r ∈ rest := by
        rcases List.mem_cons.mp hmem with h | h
        · exact absurd h.symm hxr
        · exact h
      have := ihr.2.2 this hn hp he
      omega

/-- Counterexample to claim C2 as stated: for a record whose phone
number and e-mail address both contain the search term while the name
does not, `find_record` returns the record twice. -/
theorem claim_C2_counterexample :
    ¬ ((AddressBook.find_record ⟨[(1, recD)], 2, ∅⟩ "123").count recD ≤ 1) := by
  decide

/-- Claim C2, amended: a record occurs at most twice in the result of
`find_record` (assuming the stored records are pairwise distinct); it
occurs at most once unless the term misses the name but hits both a
phone number and an e-mail address, in which case a stored record
occurs exactly twice. -/
theorem claim_C2_find_multiplicity (b : AddressBook) (term : String)
    (r : RecordM) (hnd : (b.data.map Prod.snd).Nodup) :
    (b.find_record term).count r ≤ 2 ∧
    ((matchesName term r = true ∨ matchesPhone term r = false ∨
        matchesEmail term r = false) → (b.find_record term).count r ≤ 1) ∧
    (r ∈ b.data.map Prod.snd → matchesName term r = false →
      matchesPhone term r = true → matchesEmail term r = true →
      (b.find_record term).count r = 2) :=
  count_findRecAux term r (b.data.map Prod.snd) hnd

/-- Witness for the amended C2 at a concrete book: the double-matching
record is counted exactly twice. -/
theorem claim_C2_find_multiplicity_witness :
    (AddressBook.find_record ⟨[(1, recD)], 2, ∅⟩ "123").count recD = 2 :=
  (claim_C2_find_multiplicity ⟨[(1, recD)], 2, ∅⟩ "123" recD
    (by decide)).2.2 (by decide) (by decide) (by decide) (by decide)

/- ## Lemmas about `modifyAt` and tags -/

theorem length_modifyAt (l : List NoteM) (k : Nat) (f : NoteM → NoteM) :
    (modifyAt l k f).length = l.length := by
  induction l generalizing k with
  | nil => rfl
  | cons x xs ih =>
    cases k with
    | zero => rfl
    | succ k => simp [modifyAt, ih]

theorem modifyAt_modifyAt (l : List NoteM) (k : Nat) (f g : NoteM → NoteM) :
    modifyAt (modifyAt l k f) k g = modifyAt l k (fun x => g (f x)) := by
  induction l generalizing k with
  | nil => rfl
  | cons x xs ih =>
    cases k with
    | zero => rfl
    | succ k => simp [modifyAt, ih]

theorem getElem?_modifyAt (l : List NoteM) (k j : Nat) (f : NoteM → NoteM) :
    (modifyAt l k f)[j]? = if j = k then l[j]?.map f else l[j]? := by
  induction l generalizing k j with
  | nil => simp [modifyAt]
  | cons x xs ih =>
    cases k with
    | zero =>
      cases j with
      | zero => simp [modifyAt]
      | succ j => simp [modifyAt]
    | succ k =>
      cases j with
      | zero => simp [modifyAt]
      | succ j => simpa [modifyAt] using ih k j

/-- Counterexample to claim C4 as stated: tags are stored in a list and
`add_tag` appends unconditionally, so applying it twice does not leave
the note's tags equal to applying it once. -/
theorem claim_C4_counterexample :
    ¬ ((Tag.add_tag (Tag.add_tag ⟨[⟨"n", 0, []⟩]⟩ 1 "x") 1 "x").notes.map
        NoteM.tags =
      (Tag.add_tag ⟨[⟨"n", 0, []⟩]⟩ 1 "x").notes.map NoteM.tags) := by
  decide

/-- Claim C4, amended: `add_tag` is not idempotent on the stored tag
list (a second application appends the tag again), but it is idempotent
up to the induced tag *set*: after one or two applications every note
has the same set of tags. -/
theorem claim_C4_add_tag_set_idempotent (nb : Notebook) (i : Nat)
    (t : String) (j : Nat) :
    ((Tag.add_tag (Tag.add_tag nb i t) i t).notes[j]?.map
      (fun n => n.tags.toFinset)) =
    ((Tag.add_tag nb i t).notes[j]?.map (fun n => n.tags.toFinset)) := by
  unfold Tag.add_tag
  by_cases h : 1 ≤ i ∧ i ≤ nb.notes.length
  · rw [if_pos h]
    have hlen : 1 ≤ i ∧ i ≤ (modifyAt nb.notes (i - 1)
        (fun n => n.add_tag t)).length := by
      rw [length_modifyAt]; exact h
    rw [if_pos hlen]
    simp only [modifyAt_modifyAt, getElem?_modifyAt]
    by_cases hj : j = i - 1
    · rw [if_pos hj, if_pos hj]
      cases hmem : nb.notes[j]? with
      | none => rfl
      | some n =>
        simp only [Option.map_some']
        congr 1
        ext x
        simp only [NoteM.add_tag, List.mem_toFinset, List.mem_append,
          List.mem_singleton]
        tauto
    · rw [if_neg hj, if_neg hj]
  · rw [if_neg h, if_neg h]

/- ## Persistence claims -/

/-- Counterexample to claim C5 as stated: a deserialization failure in
`Notebook.load_notes` does *not* degrade the in-memory notes to an empty
collection — the previous notes survive. -/
theorem claim_C5_counterexample :
    ¬ ((Notebook.load_notes ⟨[⟨"n", 0, []⟩]⟩ .failure).notes = []) := by
  decide

/-- Claim C5, amended: for both stores a missing file yields an empty
collection and no error reaches the caller; any other load failure
yields an empty book for the address book, but for the notebook it only
surfaces a warning and leaves the in-memory notes unchanged (so the
state is empty only when it already was, as at startup). -/
theorem claim_C5_load_degradation (nb : Notebook)
    (ns : List NoteM) (d : List (Nat × RecordM)) :
    load_address_book .missing = AddressBook.mkEmpty ∧
    load_address_book .failure = AddressBook.mkEmpty ∧
    (load_address_book (.ok d)).data = d ∧
    (Notebook.load_notes nb .missing).notes = [] ∧
    Notebook.load_notes nb .failure = nb ∧
    (Notebook.load_notes nb (.ok ns)).notes = ns ∧
    (Notebook.load_notes ⟨[]⟩ .failure).notes = [] :=
  ⟨rfl, rfl, rfl, rfl, rfl, rfl, rfl⟩

/-- Claim C6: `delete_note` fails exactly when the 1-based position is
outside `[1, len]` — in particular at 0 and at `len + 1` — and deleting
position 1 from a one-note collection leaves it empty. -/
theorem claim_C6_delete_note_bounds (nb : Notebook) (i : Nat) (n : NoteM) :
    nb.delete_note 0 = none ∧
    nb.delete_note (nb.notes.length + 1) = none ∧
    (nb.delete_note i = none ↔ ¬ (1 ≤ i ∧ i ≤ nb.notes.length)) ∧
    (Notebook.delete_note ⟨[n]⟩ 1 = some ⟨[]⟩) := by
  refine ⟨by simp [Notebook.delete_note], by simp [Notebook.delete_note],
    ?_, by simp [Notebook.delete_note, List.eraseIdx]⟩
  unfold Notebook.delete_note
  split_ifs with h
  · simp [h]
  · simp [h]

/- ## Lemmas about the lexicographic string order and `sort_tags` -/

theorem lexLe_total : ∀ as bs : List Char,
    lexLe as bs = true ∨ lexLe bs as = true := by
  intro as
  induction as with
  | nil => intro bs; left; rfl
  | cons x xs ih =>
    intro bs
    cases bs with
    | nil => right; rfl
    | cons y ys =>
      rcases lt_trichotomy x y with h | h | h
      · left; simp [lexLe, h]
      · subst h
        rcases ih ys with h' | h'
        · left; simp [lexLe, h', lt_irrefl]
        · right; simp [lexLe, h', lt_irrefl]
      · right; simp [lexLe, h]

theorem lexLe_trans : ∀ as bs cs : List Char, lexLe as bs = true →
    lexLe bs cs = true → lexLe as cs = true := by
  intro as
  induction as with
  | nil => intro bs cs _ _; rfl
  | cons x xs ih =>
    intro bs cs h1 h2
    cases bs with
    | nil => simp [lexLe] at h1
    | cons y ys =>
      cases cs with
      | nil => simp [lexLe] at h2
      | cons z zs =>
        simp only [lexLe, Bool.or_eq_true, Bool.and_eq_true,
          decide_eq_true_eq, beq_iff_eq] at h1 h2 ⊢
        rcases h1 with h1 | ⟨h1e, h1r⟩
        · rcases h2 with h2 | ⟨h2e, h2r⟩
          · exact Or.inl (lt_trans h1 h2)
          · exact Or.inl (h2e ▸ h1)
        · rcases h2 with h2 | ⟨h2e, h2r⟩
          · exact Or.inl (h1e ▸ h2)
          · exact Or.inr ⟨h1e.trans h2e, ih ys zs h1r h2r⟩

instance : IsTotal String strLeB :=
  ⟨fun a b => lexLe_total a.data b.data⟩

instance : IsTrans String strLeB :=
  ⟨fun a b c => lexLe_trans a.data b.data c.data⟩

/-- Claim C7: the keys of `sort_tags` are exactly the distinct tags
across all notes, strictly increasing in the lexicographic order, and
each key maps to the sublist of notes carrying that tag in collection
order; on notes tagged `{"b"}`, `{"a"}`, `{"a","b"}` the result is
`"a" ↦ [note 2, note 3]`, `"b" ↦ [note 1, note 3]`. -/
theorem claim_C7_sort_tags (nb : Notebook) :
    ((Tag.sort_tags nb).map Prod.fst).Pairwise
      (fun a b => strLeB a b ∧ a ≠ b) ∧
    (∀ t, t ∈ (Tag.sort_tags nb).map Prod.fst ↔
      ∃ n ∈ nb.notes, t ∈ n.tags) ∧
    (∀ p ∈ Tag.sort_tags nb, p.2.Sublist nb.notes ∧
      ∀ n, n ∈ p.2 ↔ n ∈ nb.notes ∧ p.1 ∈ n.tags) ∧
    Tag.sort_tags ⟨[nt1, nt2, nt3]⟩ =
      [("a", [nt2, nt3]), ("b", [nt1, nt3])] := by
  have hkeys : (Tag.sort_tags nb).map Prod.fst =
      List.insertionSort strLeB ((nb.notes.map NoteM.tags).flatten.dedup) := by
    simp only [Tag.sort_tags, List.map_map]
    exact List.map_id _ ▸ rfl
  refine ⟨?_, ?_, ?_, by decide⟩
  · rw [hkeys]
    have hsorted := List.sorted_insertionSort strLeB
      ((nb.notes.map NoteM.tags).flatten.dedup)
    have hnodup : (List.insertionSort strLeB
        ((nb.notes.map NoteM.tags).flatten.dedup)).Nodup :=
      (List.perm_insertionSort strLeB _).nodup_iff.mpr (List.nodup_dedup _)
    exact hsorted.and hnodup
  · intro t
    rw [hkeys, (List.perm_insertionSort strLeB _).mem_iff]
    simp only [List.mem_dedup, List.mem_flatten, List.mem_map]
    constructor
    · rintro ⟨l, ⟨n, hn, rfl⟩, ht⟩
      exact ⟨n, hn, ht⟩
    · rintro ⟨n, hn, ht⟩
      exact ⟨n.tags, ⟨n, hn, rfl⟩, ht⟩
  · intro p hp
    rcases List.mem_map.mp hp with ⟨t, _, rfl⟩
    refine ⟨List.filter_sublist _, fun n => ?_⟩
    simp [List.mem_filter]

/- ## Calendar lemmas -/

theorem daysInMonth_pos (y m : Nat) : 1 ≤ daysInMonth y m := by
  unfold daysInMonth
  split_ifs <;> omega

theorem daysBeforeMonth_succ (y m : Nat) (hm : 1 ≤ m) :
    daysBeforeMonth y (m + 1) = daysBeforeMonth y m + daysInMonth y m := by
  obtain ⟨k, rfl⟩ : ∃ k, m = k + 1 := ⟨m - 1, by omega⟩
  unfold daysBeforeMonth
  simp only [Nat.add_sub_cancel]
  rw [Finset.sum_range_succ]

theorem daysBeforeMonth_mono (y : Nat) {a b : Nat} (h : a ≤ b) :
    daysBeforeMonth y a ≤ daysBeforeMonth y b := by
  unfold daysBeforeMonth
  exact Finset.sum_le_sum_of_subset (Finset.range_subset.mpr (by omega))

theorem daysBeforeMonth_13 (y : Nat) :
    daysBeforeMonth y 13 = daysInYear y := by
  unfold daysBeforeMonth daysInYear
  by_cases h : isLeap y <;>
    simp [Finset.sum_range_succ, daysInMonth, h]

theorem daysBeforeMonth_add_day_le (y m d : Nat) (hm : 1 ≤ m) (hm' : m ≤ 12)
    (hd : d ≤ daysInMonth y m) :
    daysBeforeMonth y m + d ≤ daysInYear y := by
  have h1 : daysBeforeMonth y m + d ≤ daysBeforeMonth y (m + 1) := by
    rw [daysBeforeMonth_succ y m hm]; omega
  have h2 : daysBeforeMonth y (m + 1) ≤ daysBeforeMonth y 13 :=
    daysBeforeMonth_mono y (by omega)
  rw [daysBeforeMonth_13] at h2
  omega

theorem isLeap_iff (y : Nat) :
    isLeap y = true ↔ ((4 ∣ y ∧ ¬ 100 ∣ y) ∨ 400 ∣ y) := by
  unfold isLeap
  simp only [Bool.or_eq_true, Bool.and_eq_true, beq_iff_eq, bne_iff_ne,
    ne_eq, Nat.dvd_iff_mod_eq_zero]

theorem daysBeforeYear_succ (y : Nat) (hy : 1 ≤ y) :
    daysBeforeYear (y + 1) = daysBeforeYear y + daysInYear y := by
  obtain ⟨a, rfl⟩ : ∃ a, y = a + 1 := ⟨y - 1, by omega⟩
  have hd1 : a / 100 ≤ a / 4 := Nat.div_le_div_left (by omega) (by omega)
  have i100_4 : (100 ∣ a + 1) → (4 ∣ a + 1) := fun h => dvd_trans (by norm_num) h
  have i400_100 : (400 ∣ a + 1) → (100 ∣ a + 1) := fun h =>
    dvd_trans (by norm_num) h
  unfold daysBeforeYear daysInYear
  simp only [Nat.add_sub_cancel]
  by_cases c400 : 400 ∣ a + 1
  · have c100 := i400_100 c400
    have c4 := i100_4 c100
    rw [Nat.succ_div_of_dvd c4, Nat.succ_div_of_dvd c100,
      Nat.succ_div_of_dvd c400, if_pos ((isLeap_iff (a + 1)).mpr (Or.inr c400))]
    omega
  · by_cases c100 : 100 ∣ a + 1
    · have c4 := i100_4 c100
      have hleap : ¬ (isLeap (a + 1) = true) := by
        intro hq
        rcases (isLeap_iff _).mp hq with ⟨_, h2⟩ | h2
        · exact h2 c100
        · exact c400 h2
      rw [Nat.succ_div_of_dvd c4, Nat.succ_div_of_dvd c100,
        Nat.succ_div_of_not_dvd c400, if_neg hleap]
      omega
    · by_cases c4 : 4 ∣ a + 1
      · rw [Nat.succ_div_of_dvd c4, Nat.succ_div_of_not_dvd c100,
          Nat.succ_div_of_not_dvd c400,
          if_pos ((isLeap_iff (a + 1)).mpr (Or.inl ⟨c4, c100⟩))]
        omega
      · have hleap : ¬ (isLeap (a + 1) = true) := by
          intro hq
          rcases (isLeap_iff _).mp hq with ⟨h1, _⟩ | h2
          · exact c4 h1
          · exact c4 (i100_4 (i400_100 h2))
        rw [Nat.succ_div_of_not_dvd c4, Nat.succ_div_of_not_dvd c100,
          Nat.succ_div_of_not_dvd c400, if_neg hleap]
        omega

theorem daysBeforeYear_mono {a b : Nat} (ha : 1 ≤ a) (h : a ≤ b) :
    daysBeforeYear a ≤ daysBeforeYear b := by
  induction b with
  | zero => omega
  | succ n ih =>
    rcases Nat.lt_or_ge a (n + 1) with h' | h'
    · have hn : 1 ≤ n := by omega
      have := ih (by omega)
      rw [daysBeforeYear_succ n hn]
      omega
    · have : a = n + 1 := by omega
      subst this
      exact le_refl _

theorem toOrdinal_lt_of_year_lt {y1 m1 d1 y2 m2 d2 : Nat}
    (hy1 : 1 ≤ y1) (hm1 : 1 ≤ m1) (hm1' : m1 ≤ 12)
    (hd1 : d1 ≤ daysInMonth y1 m1) (hd2 : 1 ≤ d2) (hy : y1 < y2) :
    toOrdinal y1 m1 d1 < toOrdinal y2 m2 d2 := by
  unfold toOrdinal
  have h1 : daysBeforeMonth y1 m1 + d1 ≤ daysInYear y1 :=
    daysBeforeMonth_add_day_le y1 m1 d1 hm1 hm1' hd1
  have h2 : daysBeforeYear y1 + daysInYear y1 = daysBeforeYear (y1 + 1) :=
    (daysBeforeYear_succ y1 hy1).symm
  have h3 : daysBeforeYear (y1 + 1) ≤ daysBeforeYear y2 :=
    daysBeforeYear_mono (by omega) (by omega)
  omega

theorem toOrdinal_lt_within {y m1 d1 m2 d2 : Nat} (hm1 : 1 ≤ m1)
    (hd1 : d1 ≤ daysInMonth y m1) (hd2 : 1 ≤ d2)
    (hlex : m1 < m2 ∨ (m1 = m2 ∧ d1 < d2)) :
    toOrdinal y m1 d1 < toOrdinal y m2 d2 := by
  unfold toOrdinal
  rcases hlex with h | ⟨he, hd⟩
  · have h1 : daysBeforeMonth y m1 + d1 ≤ daysBeforeMonth y (m1 + 1) := by
      rw [daysBeforeMonth_succ y m1 hm1]; omega
    have h2 : daysBeforeMonth y (m1 + 1) ≤ daysBeforeMonth y m2 :=
      daysBeforeMonth_mono y (by omega)
    omega
  · subst he
    omega

/-- Unfolding of Python `date` comparison into arithmetic. -/
theorem dateLtB_iff (a b : CalDate) : dateLtB a b = true ↔
    (a.year < b.year ∨ (a.year = b.year ∧
      (a.month < b.month ∨ (a.month = b.month ∧ a.day < b.day)))) := by
  simp [dateLtB]

/-- The recomputed day count of `upcoming_birthdays` is non-negative,
and it is zero exactly when the birthday's month and day are today's. -/
theorem daysUntilNext_spec (today b : CalDate) (hT : dateOK today)
    (hB : dateOK b) (n : Int) (h : daysUntilNext today b = some n) :
    0 ≤ n ∧ (n = 0 ↔ b.month = today.month ∧ b.day = today.day) := by
  obtain ⟨ty, tm, td⟩ := today
  obtain ⟨by_, bm, bd⟩ := b
  obtain ⟨hT1, hT2, hT3, hT4, hT5⟩ := hT
  obtain ⟨hB1, hB2, hB3, hB4, hB5⟩ := hB
  dsimp only at hT1 hT2 hT3 hT4 hT5 hB1 hB2 hB3 hB4 hB5 ⊢
  unfold daysUntilNext at h
  cases hr : replaceYear ⟨by_, bm, bd⟩ ty with
  | none => rw [hr] at h; cases h
  | some nb =>
    rw [hr] at h
    unfold replaceYear at hr
    split_ifs at hr with hc
    cases hr
    dsimp only at h hc
    by_cases hlt : dateLtB ⟨ty, bm, bd⟩ ⟨ty, tm, td⟩ = true
    · rw [if_pos hlt] at h
      cases hr2 : replaceYear ⟨by_, bm, bd⟩ (ty + 1) with
      | none => rw [hr2] at h; cases h
      | some nb2 =>
        rw [hr2] at h
        unfold replaceYear at hr2
        split_ifs at hr2 with hc2
        cases hr2
        simp only [Option.some.injEq] at h
        subst h
        have hord : toOrdinal ty tm td < toOrdinal (ty + 1) bm bd :=
          toOrdinal_lt_of_year_lt hT1 hT2 hT3 hT5 hB4 (by omega)
        have hne : ¬ (bm = tm ∧ bd = td) := by
          rintro ⟨rfl, rfl⟩
          rw [dateLtB_iff] at hlt
          dsimp only at hlt
          omega
        simp only [CalDate.ord]
        constructor
        · omega
        · constructor
          · intro h0
            exfalso
            omega
          · intro hmd
            exact absurd hmd hne
    · rw [if_neg hlt] at h
      simp only [Option.some.injEq] at h
      subst h
      have hP : ¬ (ty < ty ∨ (ty = ty ∧ (bm < tm ∨ (bm = tm ∧ bd < td)))) := by
        intro hq
        exact hlt (by rw [dateLtB_iff]; dsimp only; exact hq)
      by_cases heq : bm = tm ∧ bd = td
      · obtain ⟨rfl, rfl⟩ := heq
        simp [CalDate.ord]
      · have hlex : tm < bm ∨ (tm = bm ∧ td < bd) := by omega
        have hord : toOrdinal ty tm td < toOrdinal ty bm bd :=
          toOrdinal_lt_within hT2 hT5 hB4 hlex
        simp only [CalDate.ord]
        constructor
        · omega
        · constructor
          · intro h0
            exfalso
            omega
          · intro hmd
            exact absurd hmd heq

theorem strptimeYMD_dateOK {s : String} {b : CalDate}
    (h : strptimeYMD s = some b) : dateOK b := by
  unfold strptimeYMD at h
  cases hp : parseYMD s.data with
  | none => rw [hp] at h; cases h
  | some v =>
    obtain ⟨y, m, d⟩ := v
    rw [hp] at h
    dsimp only at h
    split_ifs at h with hc
    cases h
    exact ⟨hc.1, hc.2.2.1, hc.2.2.2.1, hc.2.2.2.2.1, hc.2.2.2.2.2⟩

theorem upcomingAux_mem (today : CalDate) (w : Int) :
    ∀ (l : List (Nat × RecordM)) (names : List String),
      upcomingAux today w l = some names →
      ∀ nm, nm ∈ names ↔ ∃ p ∈ l, p.2.name = nm ∧ ∃ s bd n,
        p.2.birthdate = some s ∧ strptimeYMD s = some bd ∧
        daysUntilNext today bd = some n ∧ n ≤ w := by
  intro l
  induction l with
  | nil =>
    intro names h nm
    unfold upcomingAux at h
    cases h
    simp
  | cons p rest ih =>
    intro names h nm
    unfold upcomingAux at h
    cases hb : p.2.birthdate with
    | none =>
      rw [hb] at h
      dsimp only at h
      rw [ih names h nm]
      constructor
      · rintro ⟨q, hq, rest'⟩
        exact ⟨q, List.mem_cons_of_mem p hq, rest'⟩
      · rintro ⟨q, hq, hname, s, bd, n, hbs, htail⟩
        rcases List.mem_cons.mp hq with rfl | hq'
        · rw [hb] at hbs; cases hbs
        · exact ⟨q, hq', hname, s, bd, n, hbs, htail⟩
    | some s =>
      rw [hb] at h
      dsimp only at h
      cases hs : strptimeYMD s with
      | none => rw [hs] at h; dsimp only at h; cases h
      | some bd =>
        rw [hs] at h
        dsimp only at h
        cases hd : daysUntilNext today bd with
        | none => rw [hd] at h; dsimp only at h; cases h
        | some n =>
          rw [hd] at h
          dsimp only at h
          cases hrest : upcomingAux today w rest with
          | none => rw [hrest] at h; dsimp only at h; cases h
          | some names' =>
            rw [hrest] at h
            dsimp only at h
            simp only [Option.some.injEq] at h
            subst h
            have ihm := ih names' hrest
            by_cases hn : n ≤ w
            · rw [if_pos hn]
              simp only [List.mem_cons]
              constructor
              · rintro (rfl | hmem)
                · exact ⟨p, Or.inl rfl, rfl, s, bd, n, hb, hs, hd, hn⟩
                · rcases (ihm nm).mp hmem with ⟨q, hq, hrest'⟩
                  exact ⟨q, Or.inr hq, hrest'⟩
              · rintro ⟨q, hq, hname, s', bd', n', hbs, hss, hdd, hnn⟩
                rcases hq with rfl | hq'
                · rw [hb] at hbs
                  cases hbs
                  rw [hs] at hss
                  cases hss
                  exact Or.inl hname.symm
                · exact Or.inr ((ihm nm).mpr ⟨q, hq', hname, s', bd', n', hbs, hss, hdd, hnn⟩)
            · rw [if_neg hn]
              rw [ihm nm]
              constructor
              · rintro ⟨q, hq, hrest'⟩
                exact ⟨q, List.mem_cons_of_mem p hq, hrest'⟩
              · rintro ⟨q, hq, hname, s', bd', n', hbs, hss, hdd, hnn⟩
                rcases List.mem_cons.mp hq with rfl | hq'
                · rw [hb] at hbs
                  cases hbs
                  rw [hs] at hss
                  cases hss
                  rw [hd] at hdd
                  cases hdd
                  exact absurd hnn hn
                · exact ⟨q, hq', hname, s', bd', n', hbs, hss, hdd, hnn⟩

/-- Claim C8: `upcoming_birthdays` includes a record's name exactly when
the record has a (parseable) birthdate whose recomputed next occurrence
is at most `w` days away; the recomputed count is never negative; and at
window 0 exactly the names whose birthday month/day is today's are
included. -/
theorem claim_C8_upcoming_birthdays (b : AddressBook) (today : CalDate)
    (w : Int) (names : List String) (hT : dateOK today)
    (hT9 : today.year ≤ 9999)
    (h : b.upcoming_birthdays today w = some names) :
    (∀ bd n, dateOK bd → daysUntilNext today bd = some n → 0 ≤ n) ∧
    (∀ nm, nm ∈ names ↔ ∃ p ∈ b.data, p.2.name = nm ∧ ∃ s bd n,
      p.2.birthdate = some s ∧ strptimeYMD s = some bd ∧
      daysUntilNext today bd = some n ∧ n ≤ w) ∧
    (w = 0 → ∀ nm, nm ∈ names ↔ ∃ p ∈ b.data, p.2.name = nm ∧ ∃ s bd,
      p.2.birthdate = some s ∧ strptimeYMD s = some bd ∧
      bd.month = today.month ∧ bd.day = today.day) := by
  have hmem := upcomingAux_mem today w b.data names h
  refine ⟨fun bd n hbd hn => (daysUntilNext_spec today bd hT hbd n hn).1,
    hmem, ?_⟩
  rintro rfl nm
  rw [hmem nm]
  constructor
  · rintro ⟨p, hp, hname, s, bd, n, hbs, hss, hdd, hnn⟩
    have hbd := strptimeYMD_dateOK hss
    have hspec := daysUntilNext_spec today bd hT hbd n hdd
    have hn0 : n = 0 := by omega
    exact ⟨p, hp, hname, s, bd, hbs, hss, (hspec.2.mp hn0)⟩
  · rintro ⟨p, hp, hname, s, bd, hbs, hss, hm, hd⟩
    refine ⟨p, hp, hname, s, bd, 0, hbs, hss, ?_, le_refl 0⟩
    have hbd := strptimeYMD_dateOK hss
    unfold daysUntilNext
    have hrep : replaceYear bd today.year = some today := by
      unfold replaceYear
      rw [if_pos ⟨hT.1, hT9, by rw [hm, hd]; exact hT.2.2.2.2⟩]
      rw [hm, hd]
    rw [hrep]
    dsimp only
    have hltf : dateLtB today today = false := by
      simp [dateLtB]
    rw [hltf]
    simp

/-- Witness for C8: one record with birthday October 13 against today
October 12, 2026, with a 3-day window. -/
theorem claim_C8_upcoming_birthdays_witness :
    (∀ bd n, dateOK bd → daysUntilNext ⟨2026, 10, 12⟩ bd = some n → 0 ≤ n) ∧
    (∀ nm, nm ∈ ["B"] ↔ ∃ p ∈ [(1, recBd13)], p.2.name = nm ∧ ∃ s bd n,
      p.2.birthdate = some s ∧ strptimeYMD s = some bd ∧
      daysUntilNext ⟨2026, 10, 12⟩ bd = some n ∧ n ≤ 3) ∧
    ((3 : Int) = 0 → ∀ nm, nm ∈ ["B"] ↔ ∃ p ∈ [(1, recBd13)],
      p.2.name = nm ∧ ∃ s bd, p.2.birthdate = some s ∧
      strptimeYMD s = some bd ∧ bd.month = 10 ∧ bd.day = 12) :=
  claim_C8_upcoming_birthdays ⟨[(1, recBd13)], 2, ∅⟩ ⟨2026, 10, 12⟩ 3 ["B"]
    (by decide) (by decide) (by decide)

/-- Claim C3 evaluated at the failing inputs: at noon on 2026-10-12, a
record whose birthdate month/day is exactly today yields 364 (not 0,
because the code compares the full `datetime.now()` against the
birthday at midnight and rolls to next year), and a record whose
birthday is tomorrow yields 0 (not 1).  At exact midnight the same-day
case does return 0, and the result is non-negative — the claim's 0/1
statements fail only because of the time-of-day comparison. -/
theorem claim_C3_days_to_birthdate_eval :
    RecordM.days_to_birthdate ⟨⟨2026, 10, 12⟩, 43200⟩ recBd12 = .days 364 ∧
    RecordM.days_to_birthdate ⟨⟨2026, 10, 12⟩, 43200⟩ recBd13 = .days 0 ∧
    RecordM.days_to_birthdate ⟨⟨2026, 10, 12⟩, 0⟩ recBd12 = .days 0 := by
  decide

/- ## Parser characterization lemmas -/

theorem isDigit_toNat {c : Char} :
    c.isDigit = true ↔ 48 ≤ c.toNat ∧ c.toNat ≤ 57 := by
  simp [Char.isDigit, Char.le_def, UInt32.le_def, Fin.le_def, Char.toNat,
    UInt32.toNat, BitVec.le_def]

theorem dval_le_9 {c : Char} (h : c.isDigit = true) : dval c ≤ 9 := by
  have := isDigit_toNat.mp h
  unfold dval
  omega

theorem dashNotDigit : ('-').isDigit = false := by decide

theorem parseMonth_inv {l r : List Char} {m : Nat}
    (h : parseMonth l = some (m, r)) :
    ∃ ms, reads1or2 ms m ∧ l = ms ++ r := by
  rcases l with _ | ⟨c1, _ | ⟨c2, rest⟩⟩
  · cases h
  · simp only [parseMonth] at h
    split_ifs at h with hc
    · simp only [Option.some.injEq, Prod.mk.injEq] at h
      obtain ⟨rfl, rfl⟩ := h
      exact ⟨[c1], Or.inl ⟨c1, rfl, hc.1, rfl⟩, rfl⟩
  · simp only [parseMonth] at h
    split_ifs at h with h1 h2
    · simp only [Option.some.injEq, Prod.mk.injEq] at h
      obtain ⟨rfl, rfl⟩ := h
      exact ⟨[c1, c2], Or.inr ⟨c1, c2, rfl, h1.1, h1.2.1, rfl⟩, rfl⟩
    · simp only [Option.some.injEq, Prod.mk.injEq] at h
      obtain ⟨rfl, rfl⟩ := h
      exact ⟨[c1], Or.inl ⟨c1, rfl, h2.1, rfl⟩, rfl⟩

theorem parseDay_inv {l r : List Char} {d : Nat}
    (h : parseDay l = some (d, r)) :
    ∃ ds, reads1or2 ds d ∧ l = ds ++ r := by
  rcases l with _ | ⟨c1, _ | ⟨c2, rest⟩⟩
  · cases h
  · simp only [parseDay] at h
    split_ifs at h with hc
    · simp only [Option.some.injEq, Prod.mk.injEq] at h
      obtain ⟨rfl, rfl⟩ := h
      exact ⟨[c1], Or.inl ⟨c1, rfl, hc.1, rfl⟩, rfl⟩
  · simp only [parseDay] at h
    split_ifs at h with h1 h2
    · simp only [Option.some.injEq, Prod.mk.injEq] at h
      obtain ⟨rfl, rfl⟩ := h
      exact ⟨[c1, c2], Or.inr ⟨c1, c2, rfl, h1.1, h1.2.1, rfl⟩, rfl⟩
    · simp only [Option.some.injEq, Prod.mk.injEq] at h
      obtain ⟨rfl, rfl⟩ := h
      exact ⟨[c1], Or.inl ⟨c1, rfl, h2.1, rfl⟩, rfl⟩

theorem parseYMD_inv {s : List Char} {y m d : Nat}
    (h : parseYMD s = some (y, m, d)) :
    ∃ ys ms ds, reads4 ys y ∧ reads1or2 ms m ∧ reads1or2 ds d ∧
      s = ys ++ '-' :: (ms ++ '-' :: ds) := by
  rcases s with _ | ⟨c1, _ | ⟨c2, _ | ⟨c3, _ | ⟨c4, _ | ⟨c5, r1⟩⟩⟩⟩⟩
  · cases h
  · cases h
  · cases h
  · cases h
  · cases h
  · simp only [parseYMD] at h
    split_ifs at h with hdig
    obtain ⟨hd1, hd2, hd3, hd4, rfl⟩ := hdig
    cases hm : parseMonth r1 with
    | none => rw [hm] at h; cases h
    | some v =>
      obtain ⟨mv, r⟩ := v
      rw [hm] at h
      dsimp only at h
      cases r with
      | nil => cases h
      | cons c6 r2 =>
        dsimp only at h
        split_ifs at h with hdash
        subst hdash
        cases hd : parseDay r2 with
        | none => rw [hd] at h; cases h
        | some w =>
          obtain ⟨dv, r3⟩ := w
          rw [hd] at h
          dsimp only at h
          split_ifs at h with hnil
          subst hnil
          simp only [Option.some.injEq, Prod.mk.injEq] at h
          obtain ⟨rfl, rfl, rfl⟩ := h
          obtain ⟨ms, hms, rfl⟩ := parseMonth_inv hm
          obtain ⟨ds, hds, hr2⟩ := parseDay_inv hd
          rw [List.append_nil] at hr2
          subst hr2
          exact ⟨[c1, c2, c3, c4], ms, r2,
            ⟨c1, c2, c3, c4, rfl, hd1, hd2, hd3, hd4, rfl⟩, hms, hds, rfl⟩

theorem parseMonth_one (a : Char) (t : List Char) (ha : a.isDigit = true)
    (h1 : 1 ≤ dval a) :
    parseMonth (a :: '-' :: t) = some (dval a, '-' :: t) := by
  simp only [parseMonth]
  rw [if_neg (by simp [dashNotDigit]), if_pos ⟨ha, h1⟩]

theorem parseMonth_two (a b : Char) (t : List Char) (ha : a.isDigit = true)
    (hb : b.isDigit = true) (h1 : 1 ≤ 10 * dval a + dval b)
    (h2 : 10 * dval a + dval b ≤ 12) :
    parseMonth (a :: b :: t) = some (10 * dval a + dval b, t) := by
  simp only [parseMonth]
  rw [if_pos ⟨ha, hb, h1, h2⟩]

theorem parseDay_one (a : Char) (ha : a.isDigit = true) (h1 : 1 ≤ dval a) :
    parseDay [a] = some (dval a, []) := by
  simp only [parseDay]
  rw [if_pos ⟨ha, h1⟩]

theorem parseDay_two (a b : Char) (ha : a.isDigit = true)
    (hb : b.isDigit = true) (h1 : 1 ≤ 10 * dval a + dval b)
    (h2 : 10 * dval a + dval b ≤ 31) :
    parseDay [a, b] = some (10 * dval a + dval b, []) := by
  simp only [parseDay]
  rw [if_pos ⟨ha, hb, h1, h2⟩]

theorem daysInMonth_le_31 (y m : Nat) : daysInMonth y m ≤ 31 := by
  unfold daysInMonth
  split_ifs <;> omega

theorem parseYMD_complete {y m d : Nat} {ys ms ds : List Char}
    (hy : reads4 ys y) (hm : reads1or2 ms m) (hd : reads1or2 ds d)
    (hm1 : 1 ≤ m) (hm2 : m ≤ 12) (hd1 : 1 ≤ d) (hd2 : d ≤ 31) :
    parseYMD (ys ++ '-' :: (ms ++ '-' :: ds)) = some (y, m, d) := by
  obtain ⟨a, b, c, e, rfl, ha, hb, hc, he, rfl⟩ := hy
  rcases hm with ⟨a1, rfl, ha1, rfl⟩ | ⟨a1, b1, rfl, ha1, hb1, rfl⟩ <;>
    rcases hd with ⟨a2, rfl, ha2, rfl⟩ | ⟨a2, b2, rfl, ha2, hb2, rfl⟩ <;>
    simp only [List.cons_append, List.nil_append] <;>
    simp only [parseYMD]
  · rw [if_pos ⟨ha, hb, hc, he, trivial⟩, parseMonth_one a1 [a2] ha1 hm1]
    dsimp only
    rw [if_pos rfl, parseDay_one a2 ha2 hd1]
    dsimp only
    rw [if_pos rfl]
  · rw [if_pos ⟨ha, hb, hc, he, trivial⟩, parseMonth_one a1 [a2, b2] ha1 hm1]
    dsimp only
    rw [if_pos rfl, parseDay_two a2 b2 ha2 hb2 hd1 hd2]
    dsimp only
    rw [if_pos rfl]
  · rw [if_pos ⟨ha, hb, hc, he, trivial⟩,
      parseMonth_two a1 b1 ('-' :: [a2]) ha1 hb1 hm1 hm2]
    dsimp only
    rw [if_pos rfl, parseDay_one a2 ha2 hd1]
    dsimp only
    rw [if_pos rfl]
  · rw [if_pos ⟨ha, hb, hc, he, trivial⟩,
      parseMonth_two a1 b1 ('-' :: [a2, b2]) ha1 hb1 hm1 hm2]
    dsimp only
    rw [if_pos rfl, parseDay_two a2 b2 ha2 hb2 hd1 hd2]
    dsimp only
    rw [if_pos rfl]

/-- Counterexample to claim C9 as stated: `strptime("%Y-%m-%d")` accepts
the non-zero-padded `"2020-1-5"`, so `validate_birthdate` is not
equivalent to the strict zero-padded format of the claim. -/
theorem claim_C9_counterexample :
    ¬ (validate_birthdate "2020-1-5" = true ↔
        specStrictYMD "2020-1-5" = true) := by
  decide

/-- Claim C9, amended: `validate_birthdate s` is true iff `s` consists
of a four-digit year and one- or two-digit month and day numerals
(zero-padding optional) separated by hyphens, denoting a possible
calendar date (year ≥ 1, month 1..12, day within the month's length —
so month 13 or February 30 are rejected). -/
theorem claim_C9_validate_birthdate (s : String) :
    validate_birthdate s = true ↔ ∃ y m d,
      (1 ≤ y ∧ y ≤ 9999 ∧ 1 ≤ m ∧ m ≤ 12 ∧ 1 ≤ d ∧ d ≤ daysInMonth y m) ∧
      reprYMD s y m d := by
  unfold validate_birthdate strptimeYMD
  constructor
  · intro h
    cases hp : parseYMD s.data with
    | none => rw [hp] at h; simp at h
    | some v =>
      obtain ⟨y, m, d⟩ := v
      rw [hp] at h
      dsimp only at h
      split_ifs at h with hc
      · obtain ⟨ys, ms, ds, h4, hm', hd', heq⟩ := parseYMD_inv hp
        exact ⟨y, m, d, hc, ys, ms, ds, h4, hm', hd', heq⟩
      · simp at h
  · rintro ⟨y, m, d, hv, ys, ms, ds, h4, hm', hd', heq⟩
    have hp : parseYMD s.data = some (y, m, d) := by
      rw [heq]
      exact parseYMD_complete h4 hm' hd' hv.2.2.1 hv.2.2.2.1 hv.2.2.2.2.1
        (le_trans hv.2.2.2.2.2 (daysInMonth_le_31 y m))
    rw [hp]
    dsimp only
    rw [if_pos hv]
    rfl
